import Mathlib

/-!
Verification of the nvram_build / nvram_dump codec (DD-WRT NVRAM backup tools).

The development shallowly embeds the two C programs over byte lists
(`List Nat`, each element a byte value 0..255).  C strings are modelled as
the byte sequence starting at a pointer: list elements are the bytes in
memory, reading past the end of the list yields 0 (the region beyond the
buffer), and a 0 element is a NUL terminator.

Embedded functions (names follow the C source):
* `unescape_string`  — nvram_build.c, escape-sequence decoder;
* `escape_string`    — nvram_dump.c, escape-sequence encoder with an output
                       size limit `maxLen` (mode 0 = ESC_FULL, 1 = ESC_HUMAN);
* `build_record`     — nvram_build.c, the name/value → binary record step;
* `normalize`        — nvram_build.c, the backslash-newline → backslash-n
                       pre-parse rewriting loop;
* `build_file`       — nvram_build.c, the line parsing loop (records built
                       plus diagnostic line numbers);
* `build_image`      — header + records + record-count fixup, as main() writes;
* `fixup_record_count` — nvram_build.c, the 2-byte count patch;
* `read_record`, `dump_records`, `dump_file` — nvram_dump.c, binary parsing
                       and text emission;
* `write_image`      — the binary image produced for a given record list.
-/

namespace Nvram

/-- Hex-digit value accepted by strtol in base 16 (0-9, A-F, a-f). -/
def hexVal (c : Nat) : Option Nat :=
  if 48 ≤ c ∧ c ≤ 57 then some (c - 48)
  else if 65 ≤ c ∧ c ≤ 70 then some (c - 55)
  else if 97 ≤ c ∧ c ≤ 102 then some (c - 87)
  else none

/-- C `isspace` on the default locale. -/
def isSpaceC (c : Nat) : Bool := c == 32 || (9 ≤ c && c ≤ 13)

/-- Model of `strtol(s, &eptr, 16)` on the two-character buffer `s` built in
`unescape_string` (`s[0] = *p`, `s[1] = *(p+1)`, `s[2] = 0`), returning
`some v` exactly when the conversion consumes both characters
(`eptr == s+2`) with no error, as the C code requires.  strtol skips
leading whitespace and accepts an optional sign before the hex digits, so
besides two hex digits it also fully consumes a whitespace or sign
character followed by a single hex digit. -/
def strtol2 (s0 s1 : Nat) : Option Int :=
  match hexVal s0, hexVal s1 with
  | some a, some b => some (16 * a + b)
  | _, _ =>
    if isSpaceC s0 then (hexVal s1).map (fun d => (d : Int))
    else if s0 = 43 then (hexVal s1).map (fun d => (d : Int))
    else if s0 = 45 then (hexVal s1).map (fun d => -(d : Int))
    else none

/-- nvram_build.c `unescape_string`.  The argument is the memory starting at
`src`: the loop `while (*p)` stops at a 0 element (or at the end of the
list, since memory past the modelled region reads as 0).  Returns `none`
when the function returns 1 (bad `\x` escape), otherwise the bytes written
to `dest` (before the final terminator).

Note the faithful modelling of the `default:` branch: for a backslash
followed by the terminator the C code copies the terminator into `dest`
and advances `p` past it, so decoding continues with the bytes located
after the string's NUL. -/
def unescape_string : List Nat → Option (List Nat)
  | [] => some []
  | b :: rest =>
    if b = 0 then some []
    else if b = 92 then
      match rest with
      | [] => some [0]
      | c :: r =>
        if c = 97 then (unescape_string r).map (fun l => 7 :: l)
        else if c = 98 then (unescape_string r).map (fun l => 8 :: l)
        else if c = 102 then (unescape_string r).map (fun l => 12 :: l)
        else if c = 110 then (unescape_string r).map (fun l => 10 :: l)
        else if c = 114 then (unescape_string r).map (fun l => 13 :: l)
        else if c = 116 then (unescape_string r).map (fun l => 9 :: l)
        else if c = 118 then (unescape_string r).map (fun l => 11 :: l)
        else if c = 92 then (unescape_string r).map (fun l => 92 :: l)
        else if c = 120 then
          match r with
          | [] =>
            match strtol2 0 0 with
            | none => none
            | some v => some [(v % 256).toNat]
          | [s0] =>
            match strtol2 s0 0 with
            | none => none
            | some v => some [(v % 256).toNat]
          | s0 :: s1 :: r3 =>
            match strtol2 s0 s1 with
            | none => none
            | some v => (unescape_string r3).map (fun l => (v % 256).toNat :: l)
        else (unescape_string r).map (fun l => c :: l)
    else (unescape_string rest).map (fun l => b :: l)

/-- Uppercase hex digit character, as printed by `sprintf("%02.2X", ...)`. -/
def hexUpper (d : Nat) : Nat := if d < 10 then 48 + d else 55 + d

/-- nvram_dump.c `escape_string`: the `tmpbuf` contents for one source byte.
Mode 0 is ESC_FULL, mode 1 is ESC_HUMAN (newline becomes a literal
backslash followed by a literal newline). -/
def escape_seq (mode : Nat) (b : Nat) : List Nat :=
  if b < 128 then
    if b < 32 ∨ b = 127 then
      if b = 10 then (if mode = 1 then [92, 10] else [92, 110])
      else if b = 7 then [92, 97]
      else if b = 8 then [92, 98]
      else if b = 12 then [92, 102]
      else if b = 13 then [92, 114]
      else if b = 9 then [92, 116]
      else if b = 11 then [92, 118]
      else [92, 120, hexUpper (b / 16 % 16), hexUpper (b % 16)]
    else if b = 92 then [92, 92]
    else [b]
  else [92, 120, hexUpper (b / 16 % 16), hexUpper (b % 16)]

/-- The output loop of `escape_string`: `j` is the number of characters
already in `dest`; returns the characters appended and the number of
source bytes consumed (the `i` the C function returns). -/
def escLoop (mode : Nat) (maxLen : Nat) : List Nat → Nat → (List Nat × Nat)
  | [], _ => ([], 0)
  | b :: rest, j =>
    let t := escape_seq mode b
    if maxLen ≤ j + t.length then ([], 0)
    else
      let r := escLoop mode maxLen rest (j + t.length)
      (t ++ r.1, r.2 + 1)

/-- nvram_dump.c `escape_string`: returns the string written to `dest` and
the number of input characters consumed.  `strlen(src)` semantics: only
the bytes before the first NUL are processed. -/
def escape_string (mode : Nat) (src : List Nat) (maxLen : Nat) : List Nat × Nat :=
  if maxLen = 0 then ([], 0)
  else escLoop mode maxLen (src.takeWhile (fun b => b != 0)) 0

/-- The full (untruncated) escape of a byte sequence: what `escape_string`
produces whenever the size limit is not hit. -/
def escape_all (mode : Nat) : List Nat → List Nat
  | [] => []
  | b :: r => escape_seq mode b ++ escape_all mode r

/-- C `strlen` on the modelled memory. -/
def strlen0 : List Nat → Nat
  | [] => 0
  | b :: r => if b = 0 then 0 else strlen0 r + 1

/-- C `strchr(p, c)` for `c ≠ 0`: index of the first occurrence of `c`
before the terminator, if any. -/
def strchr0 (c : Nat) : List Nat → Option Nat
  | [] => none
  | b :: r =>
    if b = 0 then none
    else if b = c then some 0
    else (strchr0 c r).map (fun i => i + 1)

/-- nvram_build.c, the record assembly block of `build_file` (lines
217-229): 1-byte name length (`strlen(name) & 0xFF`), the name bytes,
2-byte little-endian value length (`strlen(value) & 0xFFFF`), the value
bytes. -/
def build_record (nm v : List Nat) : List Nat :=
  let ln := strlen0 nm % 256
  let lv := strlen0 v % 65536
  ln :: (nm.take ln ++ (lv % 256) :: (lv / 256 % 256) :: v.take lv)

/-- nvram_build.c, the pre-parse rewriting loop (lines 156-161): every
backslash element immediately followed by a newline element has that
newline replaced by the letter `n`.  After a rewrite the scan continues at
the replaced position, which can no longer start a match. -/
def normalize : List Nat → List Nat
  | 92 :: 10 :: r => 92 :: 110 :: normalize r
  | b :: r => b :: normalize r
  | [] => []

/-- The line-parsing loop of nvram_build.c `build_file` (lines 169-239),
fuelled (each iteration advances `p_start` by at least one position, so
`rem.length + 1` fuel always suffices).  `rem` is the buffer contents from
`p_start` on, `ln` the current line number.  Returns the binary records
written and the line numbers reported to stderr.

Faithful details: `strchr(p_start, '=')` searches up to the terminator,
which can be beyond the current line; `*p_newline = 0` and `*p_equals = 0`
mutate the buffer (`List.set`); the emptiness check is on the raw name;
`unescape_string` runs on the mutated memory from `p_start` (and from
`p_equals + 1`). -/
def buildLoopF : Nat → List Nat → Nat → (List (List Nat) × List Nat)
  | 0, _, _ => ([], [])
  | _ + 1, [], _ => ([], [])
  | fuel + 1, rem@(_ :: _), ln =>
    let pNewline := (strchr0 10 rem).getD (strlen0 rem)
    match strchr0 61 rem with
    | none =>
      let r := buildLoopF fuel (rem.drop (pNewline + 1)) (ln + 1)
      (r.1, ln :: r.2)
    | some eIdx =>
      let buf := (rem.set pNewline 0).set eIdx 0
      if strlen0 buf = 0 then
        let r := buildLoopF fuel (buf.drop (pNewline + 1)) (ln + 1)
        (r.1, ln :: r.2)
      else
        match unescape_string buf with
        | none =>
          let r := buildLoopF fuel (buf.drop (pNewline + 1)) (ln + 1)
          (r.1, ln :: r.2)
        | some un =>
          match unescape_string (buf.drop (eIdx + 1)) with
          | none =>
            let r := buildLoopF fuel (buf.drop (pNewline + 1)) (ln + 1)
            (r.1, ln :: r.2)
          | some uv =>
            let recd := build_record un uv
            let r := buildLoopF fuel (buf.drop (pNewline + 1)) (ln + 1)
            (recd :: r.1, r.2)

/-- nvram_build.c `build_file` on an in-memory text buffer: terminate at the
first NUL (`buffer[bytes_read] = 0` / `strlen`), run the
backslash-newline normalization, then parse lines.  Returns the binary
records written and the diagnosed line numbers. -/
def build_file (text : List Nat) : List (List Nat) × List Nat :=
  let buffer := text.takeWhile (fun b => b != 0)
  let normed := normalize buffer
  buildLoopF (normed.length + 1) normed 1

/-- nvram_build.c `fixup_record_count`: the two count bytes written at
offset 6 (`record_count & 0xFF`, `(record_count >> 8) & 0xFF`) and the
return status (0 = success; with a valid file the function always
succeeds). -/
def fixup_record_count (n : Nat) : List Nat × Nat :=
  ([n % 256, n / 256 % 256], 0)

/-- The fixed 6-byte magic tag "DD-WRT". -/
def magicTag : List Nat := [68, 68, 45, 87, 82, 84]

/-- Concatenation of a list of records' bytes (sequential `fwrite`s). -/
def bytes_join : List (List Nat) → List Nat
  | [] => []
  | x :: t => x ++ bytes_join t

/-- nvram_build.c `main` on one input text: `output_header` writes
"DD-WRT\0\0", `build_file` appends the records, `fixup_record_count`
patches bytes 6-7 with the number of records written. -/
def build_image (text : List Nat) : List Nat :=
  magicTag ++ (fixup_record_count (build_file text).1.length).1
    ++ bytes_join (build_file text).1

/-- The binary image nvram_build writes when the parsed text contains
exactly the given (already unescaped) records. -/
def write_image (rs : List (List Nat × List Nat)) : List Nat :=
  magicTag ++ (fixup_record_count rs.length).1
    ++ bytes_join (rs.map (fun r => build_record r.1 r.2))

/-- nvram_dump.c, one record read (lines 543-590): 1 length byte, that many
name bytes, 2 length bytes little-endian, that many value bytes.  `none`
models the `fread` short-read error paths (fewer bytes available than
requested). -/
def read_record (buf : List Nat) : Option (List Nat × List Nat × List Nat) :=
  match buf with
  | [] => none
  | nl :: r1 =>
    if r1.length < nl then none
    else
      let nm := r1.take nl
      let r2 := r1.drop nl
      match r2 with
      | b0 :: b1 :: r3 =>
        let vl := b1 * 256 + b0
        if r3.length < vl then none
        else some (nm, r3.take vl, r3.drop vl)
      | _ => none

/-- One output line of nvram_dump: the name escaped in full mode into a
513-byte buffer, `=`, the value escaped in the given mode into a
131073-byte buffer, newline. -/
def dump_line (mode : Nat) (nm v : List Nat) : List Nat :=
  (escape_string 0 nm 513).1 ++ 61 :: (escape_string mode v (65536 * 2 + 1)).1 ++ [10]

/-- The record loop of nvram_dump.c `dump_file`: reads `n` records, printing
each as it goes.  Returns the records read, the text emitted to stdout,
and whether the whole loop succeeded (return status 0). -/
def dump_records (mode : Nat) : List Nat → Nat → (List (List Nat × List Nat) × List Nat × Bool)
  | _, 0 => ([], [], true)
  | buf, n + 1 =>
    match read_record buf with
    | none => ([], [], false)
    | some (nm, v, rest) =>
      let r := dump_records mode rest n
      ((nm, v) :: r.1, dump_line mode nm v ++ r.2.1, r.2.2)

/-- nvram_dump.c `dump_file` on an in-memory image: an 8-byte header whose
first 6 bytes must equal the magic tag, the record count little-endian at
offset 6 (`buffer[7] * 256 + buffer[6]`), then the record loop. -/
def dump_file (mode : Nat) (img : List Nat) : List (List Nat × List Nat) × List Nat × Bool :=
  if img.length < 8 ∨ img.take 6 ≠ magicTag then ([], [], false)
  else dump_records mode (img.drop 8) (img.getD 7 0 * 256 + img.getD 6 0)

/-- The record loop hits a short read within the first `n` records. -/
def trunc_body : List Nat → Nat → Bool
  | _, 0 => false
  | buf, n + 1 =>
    match read_record buf with
    | none => true
    | some (_, _, rest) => trunc_body rest n

/-- Records that survive the full text round trip: non-empty name of at
most 255 NUL-free bytes without `=`, value of at most 65535 NUL-free
bytes not ending in a backslash, and escaped forms that fit the dump
tool's 513- and 131073-byte escape buffers. -/
def good_record (r : List Nat × List Nat) : Bool :=
  decide (r.1 ≠ [] ∧ r.1.length ≤ 255 ∧ (∀ b ∈ r.1, 0 < b ∧ b < 256 ∧ b ≠ 61) ∧
    r.2.length ≤ 65535 ∧ (∀ b ∈ r.2, 0 < b ∧ b < 256) ∧ r.2.getLast? ≠ some 92 ∧
    (escape_all 0 r.1).length ≤ 512 ∧ (escape_all 0 r.2).length ≤ 131072)

/-- The text nvram_dump emits for a record list when no escape buffer limit
is hit: per record, the name escaped in full mode, `=`, the value escaped
in the given mode, and a newline. -/
def text_mode (mode : Nat) : List (List Nat × List Nat) → List Nat
  | [] => []
  | r :: t => escape_all 0 r.1 ++ 61 :: escape_all mode r.2 ++ 10 :: text_mode mode t

end Nvram

namespace Nvram

/-! ### Basic helpers about the C string primitives -/

theorem strlen0_append (A B : List Nat) (h : ∀ b ∈ A, b ≠ 0) :
    strlen0 (A ++ B) = A.length + strlen0 B := by
  induction A with
  | nil => simp [strlen0]
  | cons a t ih =>
    have ha : a ≠ 0 := h a (by simp)
    simp [strlen0, ha, ih fun b hb => h b (by simp [hb])]
    omega

theorem strlen0_eq_length (A : List Nat) (h : ∀ b ∈ A, b ≠ 0) :
    strlen0 A = A.length := by
  have := strlen0_append A [] h
  simpa [strlen0] using this

theorem takeWhile_ne_zero (l : List Nat) (h : ∀ b ∈ l, b ≠ 0) :
    l.takeWhile (fun b => b != 0) = l := by
  induction l with
  | nil => rfl
  | cons a t ih =>
    have ha : a ≠ 0 := h a (by simp)
    have hb : (a != 0) = true := by simp [ha]
    simp [List.takeWhile_cons, hb, ih fun b hb => h b (by simp [hb])]

theorem strchr0_cons_self (c : Nat) (hc : c ≠ 0) (r : List Nat) :
    strchr0 c (c :: r) = some 0 := by
  simp [strchr0, hc]

theorem strchr0_append (c : Nat) (A B : List Nat) (h : ∀ b ∈ A, b ≠ 0 ∧ b ≠ c) :
    strchr0 c (A ++ B) = (strchr0 c B).map (fun i => i + A.length) := by
  induction A with
  | nil => simp
  | cons a t ih =>
    obtain ⟨ha0, hac⟩ := h a (by simp)
    have ih' := ih fun b hb => h b (by simp [hb])
    have hstep : strchr0 c ((a :: t) ++ B) = (strchr0 c (t ++ B)).map (fun i => i + 1) := by
      simp [strchr0, ha0, hac]
    rw [hstep, ih', Option.map_map]
    cases strchr0 c B with
    | none => rfl
    | some i =>
      simp only [Option.map_some', Option.some.injEq, Function.comp_apply, List.length_cons]
      omega

theorem strchr0_not_mem (c : Nat) (l : List Nat) (h : c ∉ l) :
    strchr0 c l = none := by
  induction l with
  | nil => rfl
  | cons a t ih =>
    have ha : a ≠ c := fun e => h (by simp [e])
    by_cases h0 : a = 0 <;>
      simp [strchr0, h0, ha, ih fun hb => h (by simp [hb])]

theorem set_append_len (A : List Nat) (b c : Nat) (B : List Nat) :
    (A ++ b :: B).set A.length c = A ++ c :: B := by
  induction A with
  | nil => simp
  | cons a t ih => simp [List.set, ih]

theorem drop_append_len (A : List Nat) (b : Nat) (B : List Nat) :
    (A ++ b :: B).drop (A.length + 1) = B := by
  induction A with
  | nil => simp
  | cons a t ih => simp [ih]

theorem getD_append_len (A : List Nat) (b : Nat) (B : List Nat) :
    (A ++ b :: B).getD A.length 0 = b := by
  induction A with
  | nil => simp
  | cons a t ih => simpa using ih

end Nvram

namespace Nvram

/-! ### Facts about single escape sequences -/

theorem hexUpper_lb (d : Nat) : 48 ≤ hexUpper d := by
  unfold hexUpper; split <;> omega

theorem hexUpper_ub (d : Nat) (h : d < 16) : hexUpper d ≤ 70 := by
  unfold hexUpper; split <;> omega

theorem hexUpper_ne_61 (d : Nat) (h : d < 16) : hexUpper d ≠ 61 := by
  unfold hexUpper; split <;> omega

theorem escape_seq_ne_nil (mode b : Nat) : escape_seq mode b ≠ [] := by
  unfold escape_seq; split_ifs <;> simp

theorem escape_seq_ne_zero (mode b : Nat) : 0 ∉ escape_seq mode b := by
  have h1 := hexUpper_lb (b / 16 % 16)
  have h2 := hexUpper_lb (b % 16)
  unfold escape_seq; split_ifs <;> simp_all <;> omega

theorem escape_seq_full_ne_ten (b : Nat) : 10 ∉ escape_seq 0 b := by
  have h1 := hexUpper_lb (b / 16 % 16)
  have h2 := hexUpper_lb (b % 16)
  unfold escape_seq; split_ifs <;> simp_all <;> omega

theorem escape_seq_ne_61 (mode b : Nat) (hb : b ≠ 61) : 61 ∉ escape_seq mode b := by
  have h1 := hexUpper_ne_61 (b / 16 % 16) (Nat.mod_lt _ (by omega))
  have h2 := hexUpper_ne_61 (b % 16) (Nat.mod_lt _ (by omega))
  unfold escape_seq; split_ifs <;> simp_all <;> omega

theorem escape_seq_getLast (mode b : Nat) (hb : b ≠ 92) :
    (escape_seq mode b).getLast? ≠ some 92 := by
  have h2 := hexUpper_ub (b % 16) (Nat.mod_lt _ (by omega))
  unfold escape_seq; split_ifs <;> simp_all [List.getLast?] <;> omega

theorem escape_seq_head (mode b : Nat) : (escape_seq mode b).head? ≠ some 10 := by
  unfold escape_seq; split_ifs <;> simp_all
  omega

theorem escape_seq_mode_eq (b : Nat) (hb : b ≠ 10) :
    escape_seq 1 b = escape_seq 0 b := by
  unfold escape_seq; split_ifs <;> simp_all

theorem escape_seq_length_eq (b : Nat) :
    (escape_seq 1 b).length = (escape_seq 0 b).length := by
  by_cases hb : b = 10
  · subst hb; rfl
  · rw [escape_seq_mode_eq b hb]

/-! ### Facts about escaping whole strings -/

theorem escape_all_append (mode : Nat) (l1 l2 : List Nat) :
    escape_all mode (l1 ++ l2) = escape_all mode l1 ++ escape_all mode l2 := by
  induction l1 with
  | nil => rfl
  | cons a t ih => simp [escape_all, ih]

theorem escape_all_ne_zero (mode : Nat) (l : List Nat) : 0 ∉ escape_all mode l := by
  induction l with
  | nil => simp [escape_all]
  | cons a t ih =>
    simp only [escape_all, List.mem_append]
    rintro (h | h)
    · exact escape_seq_ne_zero mode a h
    · exact ih h

theorem escape_all_full_ne_ten (l : List Nat) : 10 ∉ escape_all 0 l := by
  induction l with
  | nil => simp [escape_all]
  | cons a t ih =>
    simp only [escape_all, List.mem_append]
    rintro (h | h)
    · exact escape_seq_full_ne_ten a h
    · exact ih h

theorem escape_all_ne_61 (mode : Nat) (l : List Nat) (h : ∀ b ∈ l, b ≠ 61) :
    61 ∉ escape_all mode l := by
  induction l with
  | nil => simp [escape_all]
  | cons a t ih =>
    simp only [escape_all, List.mem_append]
    rintro (hm | hm)
    · exact escape_seq_ne_61 mode a (h a (by simp)) hm
    · exact ih (fun b hb => h b (by simp [hb])) hm

theorem escape_all_ne_nil (mode : Nat) (l : List Nat) (h : l ≠ []) :
    escape_all mode l ≠ [] := by
  cases l with
  | nil => exact absurd rfl h
  | cons a t =>
    simp only [escape_all]
    intro he
    exact escape_seq_ne_nil mode a (List.append_eq_nil.mp he).1

theorem escape_all_length_eq (l : List Nat) :
    (escape_all 1 l).length = (escape_all 0 l).length := by
  induction l with
  | nil => rfl
  | cons a t ih => simp [escape_all, escape_seq_length_eq, ih]

theorem escape_all_getLast (mode : Nat) (l : List Nat) (h : l.getLast? ≠ some 92) :
    (escape_all mode l).getLast? ≠ some 92 := by
  induction l with
  | nil => simp [escape_all]
  | cons a t ih =>
    cases t with
    | nil =>
      simp only [escape_all, List.append_nil]
      exact escape_seq_getLast mode a (by simpa using h)
    | cons c u =>
      have hne : escape_all mode (c :: u) ≠ [] := escape_all_ne_nil mode _ (by simp)
      rw [show escape_all mode (a :: c :: u) = escape_seq mode a ++ escape_all mode (c :: u) from rfl,
        List.getLast?_append_of_ne_nil _ hne]
      exact ih (by rwa [List.getLast?_cons_cons] at h)

end Nvram

namespace Nvram

/-! ### Decoding the escapes that the encoder produces -/

theorem unesc_zero_cons (r : List Nat) : unescape_string (0 :: r) = some [] := by
  conv_lhs => rw [unescape_string.eq_def]
  simp

theorem unesc_cons_default (b : Nat) (h0 : b ≠ 0) (h92 : b ≠ 92) (r : List Nat) :
    unescape_string (b :: r) = (unescape_string r).map (fun l => b :: l) := by
  conv_lhs => rw [unescape_string.eq_def]
  simp [h0, h92]

theorem strtol2_hexUpper (d e : Nat) (hd : d < 16) (he : e < 16) :
    strtol2 (hexUpper d) (hexUpper e) = some ((16 * d + e : Nat) : Int) := by
  have h : ∀ d2 < 16, ∀ e2 < 16,
      strtol2 (hexUpper d2) (hexUpper e2) = some ((16 * d2 + e2 : Nat) : Int) := by decide
  exact h d hd e he

theorem unesc_named (c e : Nat) (r : List Nat)
    (h : (c = 97 ∧ e = 7) ∨ (c = 98 ∧ e = 8) ∨ (c = 102 ∧ e = 12) ∨ (c = 110 ∧ e = 10) ∨
      (c = 114 ∧ e = 13) ∨ (c = 116 ∧ e = 9) ∨ (c = 118 ∧ e = 11) ∨ (c = 92 ∧ e = 92)) :
    unescape_string (92 :: c :: r) = (unescape_string r).map (fun l => e :: l) := by
  rcases h with ⟨h1, h2⟩ | ⟨h1, h2⟩ | ⟨h1, h2⟩ | ⟨h1, h2⟩ | ⟨h1, h2⟩ | ⟨h1, h2⟩ |
    ⟨h1, h2⟩ | ⟨h1, h2⟩ <;> subst h1 <;> subst h2 <;>
    (conv_lhs => rw [unescape_string.eq_def]) <;> simp

theorem unesc_hex (d e : Nat) (hd : d < 16) (he : e < 16) (r : List Nat) :
    unescape_string (92 :: 120 :: hexUpper d :: hexUpper e :: r) =
      (unescape_string r).map (fun l => (16 * d + e) :: l) := by
  have hv : (((16 * d + e : Nat) : Int) % 256).toNat = 16 * d + e := by omega
  have hv2 : ((16 * (d : Int) + (e : Int)) % 256).toNat = 16 * d + e := by omega
  conv_lhs => rw [unescape_string.eq_def]
  simp [strtol2_hexUpper d e hd he, hv, hv2]

theorem unesc_seq (b : Nat) (hb0 : 0 < b) (hb : b < 256) (r : List Nat) :
    unescape_string (escape_seq 0 b ++ r) = (unescape_string r).map (fun l => b :: l) := by
  have hhex : escape_seq 0 b = [92, 120, hexUpper (b / 16 % 16), hexUpper (b % 16)] →
      unescape_string (escape_seq 0 b ++ r) = (unescape_string r).map (fun l => b :: l) := by
    intro hseq
    rw [hseq]
    have hd : b / 16 % 16 < 16 := Nat.mod_lt _ (by omega)
    have he : b % 16 < 16 := Nat.mod_lt _ (by omega)
    rw [show ([92, 120, hexUpper (b / 16 % 16), hexUpper (b % 16)] ++ r) =
        92 :: 120 :: hexUpper (b / 16 % 16) :: hexUpper (b % 16) :: r by simp,
      unesc_hex _ _ hd he r]
    have hb16 : 16 * (b / 16 % 16) + b % 16 = b := by omega
    rw [hb16]
  have hnamed : ∀ c e : Nat, escape_seq 0 b = [92, c] → e = b →
      ((c = 97 ∧ e = 7) ∨ (c = 98 ∧ e = 8) ∨ (c = 102 ∧ e = 12) ∨ (c = 110 ∧ e = 10) ∨
        (c = 114 ∧ e = 13) ∨ (c = 116 ∧ e = 9) ∨ (c = 118 ∧ e = 11) ∨ (c = 92 ∧ e = 92)) →
      unescape_string (escape_seq 0 b ++ r) = (unescape_string r).map (fun l => b :: l) := by
    intro c e hseq heb hd
    rw [hseq]
    rw [show ([92, c] ++ r) = 92 :: c :: r by simp]
    rw [unesc_named c e r hd, heb]
  by_cases h128 : b < 128
  · by_cases hc : b < 32 ∨ b = 127
    · by_cases e10 : b = 10
      · subst e10; exact hnamed 110 10 (by decide) rfl (by decide)
      · by_cases e7 : b = 7
        · subst e7; exact hnamed 97 7 (by decide) rfl (by decide)
        · by_cases e8 : b = 8
          · subst e8; exact hnamed 98 8 (by decide) rfl (by decide)
          · by_cases e12 : b = 12
            · subst e12; exact hnamed 102 12 (by decide) rfl (by decide)
            · by_cases e13 : b = 13
              · subst e13; exact hnamed 114 13 (by decide) rfl (by decide)
              · by_cases e9 : b = 9
                · subst e9; exact hnamed 116 9 (by decide) rfl (by decide)
                · by_cases e11 : b = 11
                  · subst e11; exact hnamed 118 11 (by decide) rfl (by decide)
                  · refine hhex ?_
                    unfold escape_seq
                    rw [if_pos h128, if_pos hc, if_neg e10, if_neg e7, if_neg e8,
                      if_neg e12, if_neg e13, if_neg e9, if_neg e11]
    · by_cases e92 : b = 92
      · subst e92; exact hnamed 92 92 (by decide) rfl (by decide)
      · have hseq : escape_seq 0 b = [b] := by
          unfold escape_seq
          rw [if_pos h128, if_neg hc, if_neg e92]
        rw [hseq, List.singleton_append]
        exact unesc_cons_default b (by omega) e92 r
  · refine hhex ?_
    unfold escape_seq
    rw [if_neg h128]


theorem unesc_escape_all (s : List Nat) (h : ∀ b ∈ s, 0 < b ∧ b < 256) (r : List Nat) :
    unescape_string (escape_all 0 s ++ r) = (unescape_string r).map (fun l => s ++ l) := by
  induction s with
  | nil =>
    simp only [escape_all, List.nil_append]
    cases unescape_string r <;> simp
  | cons a t ih =>
    obtain ⟨ha0, ha256⟩ := h a (by simp)
    rw [show escape_all 0 (a :: t) = escape_seq 0 a ++ escape_all 0 t from rfl,
      List.append_assoc, unesc_seq a ha0 ha256,
      ih fun b hb => h b (by simp [hb])]
    cases unescape_string r <;> simp

theorem unesc_escape_all_zero (s : List Nat) (h : ∀ b ∈ s, 0 < b ∧ b < 256) (junk : List Nat) :
    unescape_string (escape_all 0 s ++ 0 :: junk) = some s := by
  rw [unesc_escape_all s h (0 :: junk), unesc_zero_cons]
  simp

end Nvram

namespace Nvram

/-! ### The escape loop: truncation safety and the no-truncation case -/

theorem escLoop_spec (mode maxLen : Nat) :
    ∀ (src : List Nat) (j : Nat), j < maxLen →
      j + (escLoop mode maxLen src j).1.length < maxLen ∧
      (escLoop mode maxLen src j).2 ≤ src.length ∧
      (escLoop mode maxLen src j).1 = escape_all mode (src.take (escLoop mode maxLen src j).2) ∧
      ((escLoop mode maxLen src j).2 = src.length ∨
        ((escLoop mode maxLen src j).2 < src.length ∧
          maxLen ≤ j + (escLoop mode maxLen src j).1.length +
            (escape_seq mode (src.getD (escLoop mode maxLen src j).2 0)).length)) := by
  intro src
  induction src with
  | nil =>
    intro j hj
    simp [escLoop, escape_all, hj]
  | cons b rest ih =>
    intro j hj
    by_cases hfit : maxLen ≤ j + (escape_seq mode b).length
    · have hval : escLoop mode maxLen (b :: rest) j = ([], 0) := by
        simp [escLoop, hfit]
      rw [hval]
      refine ⟨by simpa using hj, by simp, by simp [escape_all], Or.inr ⟨by simp, ?_⟩⟩
      simpa using hfit
    · have hlt : j + (escape_seq mode b).length < maxLen := by omega
      have hval : escLoop mode maxLen (b :: rest) j =
          (escape_seq mode b ++ (escLoop mode maxLen rest (j + (escape_seq mode b).length)).1,
            (escLoop mode maxLen rest (j + (escape_seq mode b).length)).2 + 1) := by
        simp [escLoop, hfit]
      obtain ⟨ih1, ih2, ih3, ih4⟩ := ih (j + (escape_seq mode b).length) hlt
      rw [hval]
      refine ⟨by simp; omega, by simp; omega, ?_, ?_⟩
      · simp only [List.take_succ_cons, escape_all, ih3]
      · rcases ih4 with h | ⟨h1, h2⟩
        · left; simp [h]
        · right
          refine ⟨by simp; omega, ?_⟩
          simp only [List.getD_cons_succ]
          simp at h2 ⊢
          omega

theorem escLoop_complete (mode maxLen : Nat) :
    ∀ (src : List Nat) (j : Nat), j + (escape_all mode src).length < maxLen →
      escLoop mode maxLen src j = (escape_all mode src, src.length) := by
  intro src
  induction src with
  | nil => intro j hj; simp [escLoop, escape_all]
  | cons b rest ih =>
    intro j hj
    simp only [escape_all, List.length_append] at hj
    have hfit : ¬ maxLen ≤ j + (escape_seq mode b).length := by omega
    have hrec := ih (j + (escape_seq mode b).length) (by omega)
    simp [escLoop, hfit, hrec, escape_all]

theorem escape_string_complete (mode : Nat) (src : List Nat) (maxLen : Nat)
    (h0 : ∀ b ∈ src, b ≠ 0) (h : (escape_all mode src).length < maxLen) :
    escape_string mode src maxLen = (escape_all mode src, src.length) := by
  have hm : maxLen ≠ 0 := by omega
  rw [escape_string, if_neg hm, takeWhile_ne_zero src h0, escLoop_complete mode maxLen src 0 (by omega)]

end Nvram

namespace Nvram

/-! ### The backslash-newline normalization -/

theorem normalize_bs_nl (l : List Nat) : normalize (92 :: 10 :: l) = 92 :: 110 :: normalize l := by
  rw [normalize.eq_def]

theorem normalize_cons (a : Nat) (l : List Nat) (h : ¬(a = 92 ∧ l.head? = some 10)) :
    normalize (a :: l) = a :: normalize l := by
  rw [normalize.eq_def]
  split <;> simp_all

theorem normalize_pass (l r : List Nat) (h10 : 10 ∉ l)
    (hlast : l.getLast? = some 92 → r.head? ≠ some 10) :
    normalize (l ++ r) = l ++ normalize r := by
  induction l with
  | nil => simp
  | cons a t ih =>
    have hcond : ¬(a = 92 ∧ (t ++ r).head? = some 10) := by
      cases t with
      | nil =>
        rintro ⟨ha, hh⟩
        exact hlast (by simp [ha]) (by simpa using hh)
      | cons b u =>
        rintro ⟨ha, hh⟩
        simp only [List.cons_append, List.head?_cons, Option.some.injEq] at hh
        exact h10 (by simp [hh])
    rw [List.cons_append, normalize_cons a (t ++ r) hcond]
    cases t with
    | nil => simp [ih (by simp) (by simp)]
    | cons b u =>
      have hlast2 : (b :: u).getLast? = some 92 → r.head? ≠ some 10 := by
        intro hg
        exact hlast (by rwa [List.getLast?_cons_cons])
      rw [ih (fun hm => h10 (by simp [hm])) hlast2]
      simp

end Nvram

namespace Nvram

theorem normalize_seq_human (b : Nat) (hb0 : 0 < b) (hb : b < 256) (r : List Nat)
    (hend : b = 92 → r.head? ≠ some 10) :
    normalize (escape_seq 1 b ++ r) = escape_seq 0 b ++ normalize r := by
  by_cases e10 : b = 10
  · subst e10
    rw [show escape_seq 1 10 = [92, 10] by decide, show escape_seq 0 10 = [92, 110] by decide]
    simp only [List.cons_append, List.nil_append]
    exact normalize_bs_nl r
  · by_cases e92 : b = 92
    · subst e92
      rw [show escape_seq 1 92 = [92, 92] by decide, show escape_seq 0 92 = [92, 92] by decide]
      simp only [List.cons_append, List.nil_append]
      rw [normalize_cons 92 (92 :: r) (by simp),
        normalize_cons 92 r (fun hx => hend rfl hx.2)]
    · rw [escape_seq_mode_eq b e10]
      exact normalize_pass (escape_seq 0 b) r (escape_seq_full_ne_ten b)
        (fun hg => absurd hg (escape_seq_getLast 0 b e92))

theorem normalize_human_val (v : List Nat) (hv : ∀ b ∈ v, 0 < b ∧ b < 256)
    (hlast : v.getLast? ≠ some 92) (C : List Nat) :
    normalize (escape_all 1 v ++ 10 :: C) = escape_all 0 v ++ 10 :: normalize C := by
  induction v with
  | nil =>
    simp only [escape_all, List.nil_append]
    exact normalize_cons 10 C (by simp)
  | cons b t ih =>
    obtain ⟨hb0, hb256⟩ := hv b (by simp)
    have hend : b = 92 → (escape_all 1 t ++ 10 :: C).head? ≠ some 10 := by
      intro h92
      cases t with
      | nil =>
        exfalso
        exact hlast (by simp [h92])
      | cons c u =>
        rw [show escape_all 1 (c :: u) ++ 10 :: C =
            escape_seq 1 c ++ (escape_all 1 u ++ 10 :: C) by simp [escape_all],
          List.head?_append_of_ne_nil _ (escape_seq_ne_nil 1 c)]
        exact escape_seq_head 1 c
    have hlast2 : t.getLast? ≠ some 92 := by
      cases t with
      | nil => simp
      | cons c u => rwa [List.getLast?_cons_cons] at hlast
    rw [show escape_all 1 (b :: t) ++ 10 :: C =
        escape_seq 1 b ++ (escape_all 1 t ++ 10 :: C) by simp [escape_all],
      normalize_seq_human b hb0 hb256 _ hend,
      ih (fun x hx => hv x (by simp [hx])) hlast2]
    simp [escape_all]

end Nvram

namespace Nvram

theorem good_record_iff (r : List Nat × List Nat) :
    good_record r = true ↔
      (r.1 ≠ [] ∧ r.1.length ≤ 255 ∧ (∀ b ∈ r.1, 0 < b ∧ b < 256 ∧ b ≠ 61) ∧
        r.2.length ≤ 65535 ∧ (∀ b ∈ r.2, 0 < b ∧ b < 256) ∧ r.2.getLast? ≠ some 92 ∧
        (escape_all 0 r.1).length ≤ 512 ∧ (escape_all 0 r.2).length ≤ 131072) := by
  simp [good_record]

theorem normalize_nil : normalize [] = [] := by rw [normalize.eq_def]

theorem text_mode_ne_zero (mode : Nat) (rs : List (List Nat × List Nat)) :
    ∀ b ∈ text_mode mode rs, b ≠ 0 := by
  induction rs with
  | nil => simp [text_mode]
  | cons r t ih =>
    intro b hb
    rw [show text_mode mode (r :: t) =
        escape_all 0 r.1 ++ 61 :: (escape_all mode r.2 ++ 10 :: text_mode mode t) by
      simp [text_mode]] at hb
    simp only [List.mem_append, List.mem_cons] at hb
    rcases hb with h | h | h | h | h
    · exact fun he => escape_all_ne_zero 0 r.1 (he ▸ h)
    · omega
    · exact fun he => escape_all_ne_zero mode r.2 (he ▸ h)
    · omega
    · exact ih b h

theorem normalize_text_full (rs : List (List Nat × List Nat))
    (hg : ∀ r ∈ rs, good_record r = true) :
    normalize (text_mode 0 rs) = text_mode 0 rs := by
  induction rs with
  | nil => exact normalize_nil
  | cons r t ih =>
    obtain ⟨-, -, -, -, -, hvlast, -, -⟩ := (good_record_iff r).mp (hg r (by simp))
    have hstep : text_mode 0 (r :: t) =
        escape_all 0 r.1 ++ 61 :: (escape_all 0 r.2 ++ 10 :: text_mode 0 t) := by
      simp [text_mode]
    rw [hstep,
      normalize_pass _ _ (escape_all_full_ne_ten r.1) (fun _ => by simp),
      normalize_cons 61 _ (by simp),
      normalize_pass _ _ (escape_all_full_ne_ten r.2)
        (fun hgl => absurd hgl (escape_all_getLast 0 r.2 hvlast)),
      normalize_cons 10 _ (by simp),
      ih (fun q hq => hg q (by simp [hq]))]

theorem normalize_text_human (rs : List (List Nat × List Nat))
    (hg : ∀ r ∈ rs, good_record r = true) :
    normalize (text_mode 1 rs) = text_mode 0 rs := by
  induction rs with
  | nil => exact normalize_nil
  | cons r t ih =>
    obtain ⟨-, -, -, -, hvmem, hvlast, -, -⟩ := (good_record_iff r).mp (hg r (by simp))
    have hstep : text_mode 1 (r :: t) =
        escape_all 0 r.1 ++ 61 :: (escape_all 1 r.2 ++ 10 :: text_mode 1 t) := by
      simp [text_mode]
    rw [hstep,
      normalize_pass _ _ (escape_all_full_ne_ten r.1) (fun _ => by simp),
      normalize_cons 61 _ (by simp),
      normalize_human_val r.2 hvmem hvlast,
      ih (fun q hq => hg q (by simp [hq]))]
    simp [text_mode]

end Nvram

namespace Nvram

/-! ### Reading back what the builder writes -/

theorem build_record_clean (n v : List Nat) (h0n : ∀ b ∈ n, b ≠ 0) (h0v : ∀ b ∈ v, b ≠ 0)
    (hn : n.length ≤ 255) (hv : v.length ≤ 65535) :
    build_record n v =
      n.length :: (n ++ (v.length % 256) :: (v.length / 256 % 256) :: v) := by
  simp only [build_record, strlen0_eq_length n h0n, strlen0_eq_length v h0v,
    Nat.mod_eq_of_lt (show n.length < 256 by omega),
    Nat.mod_eq_of_lt (show v.length < 65536 by omega), List.take_length]

theorem read_record_clean (n v rest : List Nat) (hv : v.length ≤ 65535) :
    read_record (n.length :: (n ++ (v.length % 256) :: (v.length / 256 % 256) :: (v ++ rest))) =
      some (n, v, rest) := by
  have hlen : ¬ (n ++ (v.length % 256) :: (v.length / 256 % 256) :: (v ++ rest)).length
      < n.length := by
    simp only [List.length_append, List.length_cons]
    omega
  have htake : (n ++ (v.length % 256) :: (v.length / 256 % 256) :: (v ++ rest)).take n.length
      = n := List.take_left n _
  have hdrop : (n ++ (v.length % 256) :: (v.length / 256 % 256) :: (v ++ rest)).drop n.length
      = (v.length % 256) :: (v.length / 256 % 256) :: (v ++ rest) := List.drop_left n _
  have hvl : v.length / 256 % 256 * 256 + v.length % 256 = v.length := by omega
  have hvlen : ¬ (v ++ rest).length < v.length := by simp
  simp only [read_record, hlen, if_false, htake, hdrop, hvl, hvlen,
    List.take_left v rest, List.drop_left v rest]

theorem dump_line_clean (mode : Nat) (hmode : mode = 0 ∨ mode = 1) (n v : List Nat)
    (h0n : ∀ b ∈ n, b ≠ 0) (h0v : ∀ b ∈ v, b ≠ 0)
    (hn : (escape_all 0 n).length ≤ 512) (hv : (escape_all 0 v).length ≤ 131072) :
    dump_line mode n v = escape_all 0 n ++ 61 :: escape_all mode v ++ [10] := by
  have hvm : (escape_all mode v).length ≤ 131072 := by
    rcases hmode with h | h <;> subst h
    · exact hv
    · rw [escape_all_length_eq]; exact hv
  rw [dump_line, escape_string_complete 0 n 513 h0n (by omega),
    escape_string_complete mode v (65536 * 2 + 1) h0v (by omega)]

theorem dump_records_clean (mode : Nat) (hmode : mode = 0 ∨ mode = 1)
    (rs : List (List Nat × List Nat)) (hg : ∀ r ∈ rs, good_record r = true) :
    dump_records mode (bytes_join (rs.map (fun r => build_record r.1 r.2))) rs.length =
      (rs, text_mode mode rs, true) := by
  induction rs with
  | nil => simp [dump_records, bytes_join, text_mode]
  | cons r t ih =>
    obtain ⟨hne, hn255, hnmem, hv65535, hvmem, hvlast, hn512, hv131072⟩ :=
      (good_record_iff r).mp (hg r (by simp))
    have h0n : ∀ b ∈ r.1, b ≠ 0 := fun b hb => by have := hnmem b hb; omega
    have h0v : ∀ b ∈ r.2, b ≠ 0 := fun b hb => by have := hvmem b hb; omega
    have hbytes : bytes_join ((r :: t).map (fun q => build_record q.1 q.2)) =
        r.1.length :: (r.1 ++ (r.2.length % 256) :: (r.2.length / 256 % 256) ::
          (r.2 ++ bytes_join (t.map (fun q => build_record q.1 q.2)))) := by
      simp only [List.map_cons, bytes_join,
        build_record_clean r.1 r.2 h0n h0v hn255 hv65535]
      simp
    rw [show (r :: t).length = t.length + 1 by simp, hbytes]
    rw [show dump_records mode (r.1.length :: (r.1 ++ (r.2.length % 256) ::
        (r.2.length / 256 % 256) :: (r.2 ++ bytes_join (t.map (fun q => build_record q.1 q.2)))))
        (t.length + 1) =
      (match read_record (r.1.length :: (r.1 ++ (r.2.length % 256) ::
          (r.2.length / 256 % 256) :: (r.2 ++ bytes_join (t.map (fun q => build_record q.1 q.2)))))
        with
      | none => ([], [], false)
      | some (nm, v, rest) =>
        let q := dump_records mode rest t.length
        ((nm, v) :: q.1, dump_line mode nm v ++ q.2.1, q.2.2)) by
      rw [dump_records]]
    rw [read_record_clean r.1 r.2 _ hv65535]
    simp only [ih (fun q hq => hg q (by simp [hq]))]
    rw [dump_line_clean mode hmode r.1 r.2 h0n h0v hn512 hv131072]
    simp [text_mode]

end Nvram

namespace Nvram

/-! ### Parsing well-formed text lines in build_file -/

theorem buildLoopF_nil (f ln : Nat) : buildLoopF f [] ln = ([], []) := by
  cases f <;> rw [buildLoopF.eq_def]

theorem buildLoopF_step (f : Nat) (rem : List Nat) (hne : rem ≠ []) (ln : Nat) :
    buildLoopF (f + 1) rem ln =
      (let pNewline := (strchr0 10 rem).getD (strlen0 rem)
       match strchr0 61 rem with
       | none =>
         let r := buildLoopF f (rem.drop (pNewline + 1)) (ln + 1)
         (r.1, ln :: r.2)
       | some eIdx =>
         let buf := (rem.set pNewline 0).set eIdx 0
         if strlen0 buf = 0 then
           let r := buildLoopF f (buf.drop (pNewline + 1)) (ln + 1)
           (r.1, ln :: r.2)
         else
           match unescape_string buf with
           | none =>
             let r := buildLoopF f (buf.drop (pNewline + 1)) (ln + 1)
             (r.1, ln :: r.2)
           | some un =>
             match unescape_string (buf.drop (eIdx + 1)) with
             | none =>
               let r := buildLoopF f (buf.drop (pNewline + 1)) (ln + 1)
               (r.1, ln :: r.2)
             | some uv =>
               let recd := build_record un uv
               let r := buildLoopF f (buf.drop (pNewline + 1)) (ln + 1)
               (recd :: r.1, r.2)) := by
  obtain ⟨a, t, rfl⟩ := List.exists_cons_of_ne_nil hne
  rw [buildLoopF.eq_def]

theorem buildLoopF_line (f ln : Nat) (A B C n v : List Nat)
    (hA : A ≠ []) (hA0 : ∀ b ∈ A, b ≠ 0) (hA61 : 61 ∉ A) (hA10 : 10 ∉ A)
    (hB0 : ∀ b ∈ B, b ≠ 0) (hB10 : 10 ∉ B)
    (hun : unescape_string (A ++ 0 :: (B ++ 0 :: C)) = some n)
    (huv : unescape_string (B ++ 0 :: C) = some v) :
    buildLoopF (f + 1) (A ++ 61 :: (B ++ 10 :: C)) ln =
      (build_record n v :: (buildLoopF f C (ln + 1)).1, (buildLoopF f C (ln + 1)).2) := by
  have hrem2 : A ++ 61 :: (B ++ 10 :: C) = (A ++ 61 :: B) ++ 10 :: C := by simp
  have h61 : strchr0 61 (A ++ 61 :: (B ++ 10 :: C)) = some A.length := by
    rw [strchr0_append 61 A _ (fun b hb => ⟨hA0 b hb, fun he => hA61 (he ▸ hb)⟩),
      strchr0_cons_self 61 (by omega)]
    simp
  have h10 : strchr0 10 (A ++ 61 :: (B ++ 10 :: C)) = some ((A ++ 61 :: B).length) := by
    rw [hrem2, strchr0_append 10 (A ++ 61 :: B) _ ?hcond, strchr0_cons_self 10 (by omega)]
    · simp
    case hcond =>
      intro b hb
      simp only [List.mem_append, List.mem_cons] at hb
      rcases hb with h | h | h
      · exact ⟨hA0 b h, fun he => hA10 (he ▸ h)⟩
      · omega
      · exact ⟨hB0 b h, fun he => hB10 (he ▸ h)⟩
  have hset : ((A ++ 61 :: (B ++ 10 :: C)).set ((A ++ 61 :: B).length) 0).set A.length 0 =
      A ++ 0 :: (B ++ 0 :: C) := by
    rw [hrem2, set_append_len (A ++ 61 :: B) 10 0 C,
      show (A ++ 61 :: B) ++ 0 :: C = A ++ 61 :: (B ++ 0 :: C) by simp,
      set_append_len A 61 0 (B ++ 0 :: C)]
  have hstrlen : strlen0 (A ++ 0 :: (B ++ 0 :: C)) = A.length := by
    rw [strlen0_append A _ hA0]
    simp [strlen0]
  have hlenA : A.length ≠ 0 := fun he => hA (List.eq_nil_of_length_eq_zero he)
  have hdropv : (A ++ 0 :: (B ++ 0 :: C)).drop (A.length + 1) = B ++ 0 :: C :=
    drop_append_len A 0 _
  have hdropn : (A ++ 0 :: (B ++ 0 :: C)).drop ((A ++ 61 :: B).length + 1) = C := by
    rw [show A ++ 0 :: (B ++ 0 :: C) = (A ++ 0 :: B) ++ 0 :: C by simp,
      show (A ++ 61 :: B).length = (A ++ 0 :: B).length by simp,
      drop_append_len (A ++ 0 :: B) 0 C]
  rw [buildLoopF_step f _ (by simp) ln]
  simp only [h61, h10, Option.getD_some, hset, hstrlen, hlenA, if_false, hun, huv,
    hdropv, hdropn]

end Nvram

namespace Nvram

theorem build_lines (rs : List (List Nat × List Nat)) :
    ∀ (fuel ln : Nat), (∀ r ∈ rs, good_record r = true) →
      (text_mode 0 rs).length < fuel →
      buildLoopF fuel (text_mode 0 rs) ln =
        (rs.map (fun r => build_record r.1 r.2), []) := by
  induction rs with
  | nil =>
    intro fuel ln _ _
    rw [show text_mode 0 [] = [] by simp [text_mode]]
    simp [buildLoopF_nil]
  | cons r t ih =>
    intro fuel ln hg hfuel
    obtain ⟨hne, hn255, hnmem, hv65535, hvmem, hvlast, hn512, hv131072⟩ :=
      (good_record_iff r).mp (hg r (by simp))
    have htm : text_mode 0 (r :: t) =
        escape_all 0 r.1 ++ 61 :: (escape_all 0 r.2 ++ 10 :: text_mode 0 t) := by
      simp [text_mode]
    cases fuel with
    | zero => exact absurd hfuel (by omega)
    | succ f =>
      have hAne : escape_all 0 r.1 ≠ [] := escape_all_ne_nil 0 r.1 hne
      have hmem1 : ∀ b ∈ r.1, 0 < b ∧ b < 256 :=
        fun b hb => ⟨(hnmem b hb).1, (hnmem b hb).2.1⟩
      rw [htm, buildLoopF_line f ln (escape_all 0 r.1) (escape_all 0 r.2) (text_mode 0 t)
        r.1 r.2 hAne
        (fun b hb he => escape_all_ne_zero 0 r.1 (he ▸ hb))
        (escape_all_ne_61 0 r.1 (fun b hb => (hnmem b hb).2.2))
        (escape_all_full_ne_ten r.1)
        (fun b hb he => escape_all_ne_zero 0 r.2 (he ▸ hb))
        (escape_all_full_ne_ten r.2)
        (unesc_escape_all_zero r.1 hmem1 _)
        (unesc_escape_all_zero r.2 hvmem _)]
      have hClen : (text_mode 0 t).length < f := by
        rw [htm] at hfuel
        have hpos : 0 < (escape_all 0 r.1).length := List.length_pos.mpr hAne
        simp only [List.length_append, List.length_cons] at hfuel
        omega
      rw [ih f (ln + 1) (fun q hq => hg q (by simp [hq])) hClen]
      simp

theorem build_file_clean (mode : Nat) (hmode : mode = 0 ∨ mode = 1)
    (rs : List (List Nat × List Nat)) (hg : ∀ r ∈ rs, good_record r = true) :
    build_file (text_mode mode rs) = (rs.map (fun r => build_record r.1 r.2), []) := by
  have hnorm : normalize (text_mode mode rs) = text_mode 0 rs := by
    rcases hmode with h | h <;> subst h
    · exact normalize_text_full rs hg
    · exact normalize_text_human rs hg
  rw [build_file]
  rw [takeWhile_ne_zero _ (text_mode_ne_zero mode rs), hnorm]
  exact build_lines rs _ 1 hg (by omega)

theorem build_image_clean (mode : Nat) (hmode : mode = 0 ∨ mode = 1)
    (rs : List (List Nat × List Nat)) (hg : ∀ r ∈ rs, good_record r = true) :
    build_image (text_mode mode rs) = write_image rs := by
  rw [build_image, build_file_clean mode hmode rs hg, write_image]
  simp

theorem dump_file_write_image (mode : Nat) (hmode : mode = 0 ∨ mode = 1)
    (rs : List (List Nat × List Nat)) (hg : ∀ r ∈ rs, good_record r = true)
    (hcnt : rs.length ≤ 65535) :
    dump_file mode (write_image rs) = (rs, text_mode mode rs, true) := by
  have hw : write_image rs = 68 :: 68 :: 45 :: 87 :: 82 :: 84 :: (rs.length % 256) ::
      (rs.length / 256 % 256) :: bytes_join (rs.map (fun r => build_record r.1 r.2)) := by
    simp [write_image, magicTag, fixup_record_count]
  rw [hw, dump_file]
  rw [if_neg (by simp [magicTag])]
  have hL : rs.length / 256 % 256 * 256 + rs.length % 256 = rs.length := by omega
  simp only [List.getD_cons_succ, List.getD_cons_zero, List.drop_succ_cons, List.drop_zero, hL]
  exact dump_records_clean mode hmode rs hg

end Nvram

namespace Nvram

theorem dump_records_trunc (mode : Nat) :
    ∀ (n : Nat) (buf : List Nat), trunc_body buf n = true →
      (dump_records mode buf n).2.2 = false := by
  intro n
  induction n with
  | zero => intro buf h; simp [trunc_body] at h
  | succ k ih =>
    intro buf h
    cases hr : read_record buf with
    | none => simp [dump_records, hr]
    | some x =>
      obtain ⟨nm, v, rest⟩ := x
      simp only [trunc_body, hr] at h
      simp only [dump_records, hr]
      exact ih rest h

theorem dump_records_complete (mode : Nat) :
    ∀ (n : Nat) (buf : List Nat), (dump_records mode buf n).2.2 = true →
      (dump_records mode buf n).1.length = n := by
  intro n
  induction n with
  | zero => intro buf _; simp [dump_records]
  | succ k ih =>
    intro buf h
    cases hr : read_record buf with
    | none => simp [dump_records, hr] at h
    | some x =>
      obtain ⟨nm, v, rest⟩ := x
      simp only [dump_records, hr] at h ⊢
      simp [ih rest h]

theorem hexVal_lt (s a : Nat) (h : hexVal s = some a) : a < 16 := by
  unfold hexVal at h
  split_ifs at h <;> simp_all <;> omega

end Nvram

namespace Nvram

/-! ### Claim theorems -/

/-- C1 (amended).  Full-mode round trip: for records whose names are
non-empty, at most 255 NUL-free bytes without `=`, whose values are at
most 65535 NUL-free bytes not ending in a backslash, whose escaped forms
fit the dump tool's escape buffers, and with at most 65535 records:
reading back the written binary image yields the same ordered record
sequence, and dumping the image to Full-mode text and rebuilding
reconstructs the binary image byte-exactly. -/
theorem c1_full_roundtrip (rs : List (List Nat × List Nat))
    (hg : ∀ r ∈ rs, good_record r = true) (hcnt : rs.length ≤ 65535) :
    (dump_file 0 (write_image rs)).1 = rs ∧
    (dump_file 0 (write_image rs)).2.2 = true ∧
    build_image ((dump_file 0 (write_image rs)).2.1) = write_image rs := by
  have hd := dump_file_write_image 0 (Or.inl rfl) rs hg hcnt
  refine ⟨by rw [hd], by rw [hd], ?_⟩
  rw [hd]
  exact build_image_clean 0 (Or.inl rfl) rs hg

/-- C1 witness: the round trip at the concrete record ("w", "\nh"). -/
theorem c1_full_roundtrip_witness :
    (∀ r ∈ [(([119], [10, 104]) : List Nat × List Nat)], good_record r = true) ∧
    build_image ((dump_file 0 (write_image [([119], [10, 104])])).2.1) =
      write_image [([119], [10, 104])] :=
  ⟨by decide, (c1_full_roundtrip [([119], [10, 104])] (by decide) (by decide)).2.2⟩

/-- C1 counterexample: the record ("a", "b\") satisfies the claim's stated
bounds (name ≤ 255 bytes, value ≤ 65535 bytes, backslashes explicitly
included), yet serializing, dumping to Full-mode text and rebuilding does
not reconstruct the original image: the build-side normalization rewrites
the escaped trailing backslash `\\` followed by the line's newline into
`\\n`, merging the record's value with the line separator. -/
theorem c1_counterexample :
    build_image ((dump_file 0 (write_image [([97], [98, 92])])).2.1) ≠
      write_image [([97], [98, 92])] := by decide

/-- C2 (amended).  Human-mode round trip holds for the same record class as
the full-mode round trip — in particular the value must not end in a
literal backslash — and the pre-parse normalization rewrites every
backslash immediately followed by a newline into backslash-n, including
the second backslash of a doubled backslash (there is no lookbehind). -/
theorem c2_human_roundtrip (rs : List (List Nat × List Nat))
    (hg : ∀ r ∈ rs, good_record r = true) (hcnt : rs.length ≤ 65535) :
    build_image ((dump_file 1 (write_image rs)).2.1) = write_image rs ∧
    (∀ l : List Nat, normalize (92 :: 10 :: l) = 92 :: 110 :: normalize l) := by
  constructor
  · have hd := dump_file_write_image 1 (Or.inr rfl) rs hg hcnt
    rw [hd]
    exact build_image_clean 1 (Or.inr rfl) rs hg
  · exact normalize_bs_nl

/-- C2 witness: the human-mode round trip at the concrete record
("h", "l\nw"), whose value contains an internal newline. -/
theorem c2_human_roundtrip_witness :
    (∀ r ∈ [(([104], [108, 10, 119]) : List Nat × List Nat)], good_record r = true) ∧
    build_image ((dump_file 1 (write_image [([104], [108, 10, 119])])).2.1) =
      write_image [([104], [108, 10, 119])] :=
  ⟨by decide, (c2_human_roundtrip [([104], [108, 10, 119])] (by decide) (by decide)).1⟩

/-- C2 counterexample: the normalization does NOT leave a doubled backslash
followed by a newline untouched (the pair at positions 1-2 of [92,92,10]
is rewritten), and consequently the human-mode round trip fails for the
record ("a", "b\") whose value ends in a literal backslash. -/
theorem c2_counterexample :
    normalize [92, 92, 10] ≠ [92, 92, 10] ∧
    build_image ((dump_file 1 (write_image [([97], [98, 92])])).2.1) ≠
      write_image [([97], [98, 92])] := by decide

set_option maxRecDepth 10000 in
/-- C3: a 300-byte name is not rejected; `strlen(name) & 0xFF` masks the
length to 44 and the record is silently written with length byte 44 and
the first 44 name bytes, with no diagnostic. -/
theorem c3_name_mask_eval :
    build_file (List.replicate 300 97 ++ [61, 118]) =
      ([44 :: (List.replicate 44 97 ++ [1, 0, 118])], []) := by decide

/-- C4 (amended).  A `\x` escape succeeds exactly when strtol consumes the
two following characters: two hex digits yield precisely the byte they
denote, but a whitespace or sign character followed by one hex digit is
also accepted (yielding that digit's value, taken modulo 256 for a minus
sign) instead of failing; any other pair — including a missing pair —
fails with a structural error for that record. -/
theorem c4_hex_decode : ∀ (s0 s1 a b : Nat) (r : List Nat),
    (hexVal s0 = some a → hexVal s1 = some b →
      unescape_string (92 :: 120 :: s0 :: s1 :: r) =
        (unescape_string r).map (fun l => (16 * a + b) :: l)) ∧
    (strtol2 s0 s1 = none → unescape_string (92 :: 120 :: s0 :: s1 :: r) = none) := by
  intro s0 s1 a b r
  constructor
  · intro h0 h1
    have ha := hexVal_lt s0 a h0
    have hb := hexVal_lt s1 b h1
    have hs : strtol2 s0 s1 = some (16 * (a : Int) + (b : Int)) := by
      unfold strtol2
      rw [h0, h1]
    have hv : ((16 * (a : Int) + (b : Int)) % 256).toNat = 16 * a + b := by omega
    conv_lhs => rw [unescape_string.eq_def]
    simp [hs, hv]
  · intro h
    conv_lhs => rw [unescape_string.eq_def]
    simp [h]

/-- C4 witness: `\xAF` decodes to byte 175; `\xGG` fails. -/
theorem c4_hex_decode_witness :
    unescape_string [92, 120, 65, 70] =
      (unescape_string []).map (fun l => (16 * 10 + 15) :: l) ∧
    unescape_string [92, 120, 71, 71] = none :=
  ⟨(c4_hex_decode 65 70 10 15 []).1 (by decide) (by decide),
   (c4_hex_decode 71 71 0 0 []).2 (by decide)⟩

/-- C4 counterexample: `\x` followed by a space and the digit 5 — the two
characters after `\x` are not both hex digits, so the claim requires a
structural error — decodes successfully to the single byte 5, because
strtol skips the leading whitespace. -/
theorem c4_counterexample :
    unescape_string [92, 120, 32, 53] = some [5] := by decide

/-- C5: a record whose declared name or value length exceeds the bytes
remaining makes the whole dump fail (status is failure), and a successful
status always carries exactly the declared number of records — never a
partial list presented as success. -/
theorem c5_truncation_fatal : ∀ (mode : Nat) (img : List Nat),
    (8 ≤ img.length → img.take 6 = magicTag →
      trunc_body (img.drop 8) (img.getD 7 0 * 256 + img.getD 6 0) = true →
      (dump_file mode img).2.2 = false) ∧
    ((dump_file mode img).2.2 = true →
      (dump_file mode img).1.length = img.getD 7 0 * 256 + img.getD 6 0) := by
  intro mode img
  constructor
  · intro h8 hmagic htr
    rw [dump_file, if_neg (not_or.mpr ⟨by omega, by simp [hmagic]⟩)]
    exact dump_records_trunc mode _ _ htr
  · intro hok
    by_cases hc : img.length < 8 ∨ img.take 6 ≠ magicTag
    · rw [dump_file, if_pos hc] at hok
      simp at hok
    · rw [dump_file, if_neg hc] at hok ⊢
      exact dump_records_complete mode _ _ hok

/-- C5 witness: an image declaring one record with name length 5 but only
one byte remaining fails; a complete one-record image yields one record. -/
theorem c5_truncation_fatal_witness :
    (dump_file 0 [68, 68, 45, 87, 82, 84, 1, 0, 5, 65]).2.2 = false ∧
    (dump_file 0 [68, 68, 45, 87, 82, 84, 1, 0, 1, 97, 1, 0, 98]).1.length = 1 :=
  ⟨(c5_truncation_fatal 0 [68, 68, 45, 87, 82, 84, 1, 0, 5, 65]).1
      (by decide) (by decide) (by decide),
   (c5_truncation_fatal 0 [68, 68, 45, 87, 82, 84, 1, 0, 1, 97, 1, 0, 98]).2 (by decide)⟩

/-- C6: an image shorter than the 8-byte header or whose first 6 bytes
differ from the magic tag is rejected with zero records, and otherwise the
record count used is the little-endian unsigned 16-bit value at offset 6. -/
theorem c6_header_validation : ∀ (mode : Nat) (img : List Nat),
    ((img.length < 8 ∨ img.take 6 ≠ magicTag) → dump_file mode img = ([], [], false)) ∧
    (8 ≤ img.length → img.take 6 = magicTag →
      dump_file mode img =
        dump_records mode (img.drop 8) (img.getD 7 0 * 256 + img.getD 6 0)) := by
  intro mode img
  constructor
  · intro h
    rw [dump_file, if_pos h]
  · intro h8 hm
    rw [dump_file, if_neg (not_or.mpr ⟨by omega, by simp [hm]⟩)]

/-- C6 witness: a 3-byte buffer is rejected with zero records; a valid
8-byte header with count bytes 2,1 proceeds with count 258. -/
theorem c6_header_validation_witness :
    dump_file 0 [1, 2, 3] = ([], [], false) ∧
    dump_file 0 [68, 68, 45, 87, 82, 84, 2, 1] = dump_records 0 [] 258 :=
  ⟨(c6_header_validation 0 [1, 2, 3]).1 (Or.inl (by decide)),
   (c6_header_validation 0 [68, 68, 45, 87, 82, 84, 2, 1]).2 (by decide) (by decide)⟩

/-- C7: with 70000 records the count fixup writes the masked little-endian
bytes [112, 17] — encoding 70000 mod 65536 = 4464 — and still returns
success (0); no structural error is raised. -/
theorem c7_count_wrap_eval :
    fixup_record_count 70000 = ([112, 17], 0) ∧ 112 + 256 * 17 ≠ 70000 := by decide

/-- C8: on the text "noequals\nfoo=bar\n" the parser does not skip the
first line: strchr finds the `=` of the second line, the first line's
name is paired with "bar\n" as value, the second line's `=` is destroyed,
and lines 2 and 3 are (mis)reported as missing their equals sign; the
valid record ("foo","bar") is never produced. -/
theorem c8_crossline_eval :
    build_file [110, 111, 101, 113, 117, 97, 108, 115, 10, 102, 111, 111, 61, 98, 97, 114, 10] =
      ([[8, 110, 111, 101, 113, 117, 97, 108, 115, 4, 0, 98, 97, 114, 10]], [2, 3]) ∧
    ([[8, 110, 111, 101, 113, 117, 97, 108, 115, 4, 0, 98, 97, 114, 10]] : List (List Nat)) ≠
      [build_record [102, 111, 111] [98, 97, 114]] := by decide

/-- C9: with a positive capacity, the encoder writes strictly fewer than
`maxLen` characters, consumes a prefix of the input, emits exactly the
full escapes of the consumed prefix (never splitting an escape sequence),
and stops early only when the next escape sequence would not fit. -/
theorem c9_encode_truncation_safety : ∀ (mode : Nat) (src : List Nat) (maxLen : Nat),
    0 < maxLen → (∀ b ∈ src, b ≠ 0) →
    (escape_string mode src maxLen).1.length < maxLen ∧
    (escape_string mode src maxLen).2 ≤ src.length ∧
    (escape_string mode src maxLen).1 =
      escape_all mode (src.take (escape_string mode src maxLen).2) ∧
    ((escape_string mode src maxLen).2 = src.length ∨
      ((escape_string mode src maxLen).2 < src.length ∧
        maxLen ≤ (escape_string mode src maxLen).1.length +
          (escape_seq mode (src.getD (escape_string mode src maxLen).2 0)).length)) := by
  intro mode src maxLen hmax h0
  have hm : maxLen ≠ 0 := by omega
  have hsrc : src.takeWhile (fun b => b != 0) = src := takeWhile_ne_zero src h0
  simp only [escape_string, if_neg hm, hsrc]
  have hs := escLoop_spec mode maxLen src 0 hmax
  simpa using hs

/-- C9 witness: encoding "ab" with capacity 2 writes only "a" and reports
one byte consumed, because "b" would not leave room for the terminator. -/
theorem c9_encode_truncation_safety_witness :
    (escape_string 0 [97, 98] 2).1.length < 2 ∧
    (escape_string 0 [97, 98] 2).2 ≤ ([97, 98] : List Nat).length ∧
    (escape_string 0 [97, 98] 2).1 =
      escape_all 0 (([97, 98] : List Nat).take (escape_string 0 [97, 98] 2).2) ∧
    ((escape_string 0 [97, 98] 2).2 = ([97, 98] : List Nat).length ∨
      ((escape_string 0 [97, 98] 2).2 < ([97, 98] : List Nat).length ∧
        2 ≤ (escape_string 0 [97, 98] 2).1.length +
          (escape_seq 0 (([97, 98] : List Nat).getD (escape_string 0 [97, 98] 2).2 0)).length)) :=
  c9_encode_truncation_safety 0 [97, 98] 2 (by decide) (by decide)

/-- C10: decoding a string consisting of a single backslash copies the
terminator into the output and keeps consuming the bytes located after
the string's NUL, so the result depends on memory beyond the string: with
the byte 65 after the terminator the output is [0, 65], without it [0]. -/
theorem c10_overread_eval :
    unescape_string [92, 0, 65] = some [0, 65] ∧
    unescape_string [92, 0] = some [0] ∧
    unescape_string [92, 0, 65] ≠ unescape_string [92, 0] := by decide

end Nvram
